import Mathlib

/-!
Verification of the NexLearn document-graph core: a shallow embedding of the
overlay engine (`processContent` in NodeDetailView.tsx), the heading projector
(`parseTocFromMarkdown` / `computedToc` / the mindmap effect), the section
extraction of `renderMindmapContent`, the graph store operations
(`deleteNode`, `addEdge` in appStore.ts) and the import normalizer
(`normalizeAnnotation` in SettingsPanel.tsx).

Text is modelled as `List Char`; character offsets are `Nat` (JS string
indices; the JS check `start >= 0` is vacuous over `Nat` and noted where it
occurs).  JS `Array.prototype.sort` is modelled by Mathlib's stable
`insertionSort` with the source comparator.
-/

namespace NexLearn

/-- JS whitespace for `trim` / `\s` (ASCII subset). -/
def isWs (c : Char) : Bool :=
  c = ' ' || c = '\t' || c = '\n' || c = '\r' || c = '\x0b' || c = '\x0c'

/-- JS `String.prototype.trimStart`. -/
def trimStart (l : List Char) : List Char := l.dropWhile isWs

/-- JS `String.prototype.trimEnd`. -/
def trimEnd (l : List Char) : List Char := (l.reverse.dropWhile isWs).reverse

/-- JS `content.split('\n')`. -/
def splitNl : List Char → List (List Char)
  | [] => [[]]
  | c :: t =>
    if c = '\n' then [] :: splitNl t
    else
      match splitNl t with
      | [] => [[c]]
      | h :: r => (c :: h) :: r

/-- JS `lines.join('\n')`. -/
def joinNl : List (List Char) → List Char
  | [] => []
  | [l] => l
  | l :: ls => l ++ '\n' :: joinNl ls

/-- First index of the pattern in the text, JS `String.prototype.indexOf`
(`none` models the JS result `-1`). -/
def indexOfSub (pat : List Char) : List Char → Option Nat
  | [] => if pat.isPrefixOf ([] : List Char) then some 0 else none
  | c :: t =>
    if pat.isPrefixOf (c :: t) then some 0
    else (indexOfSub pat t).map (· + 1)

/-- The three-backtick characters opening/closing a Markdown code fence. -/
def fenceChars : List Char := "```".data

/-- Whether a (trimmed) line starts a code fence: `line.trimStart().startsWith('```')`. -/
def fenceLine (t : List Char) : Bool := fenceChars.isPrefixOf t

/-- One line of the fence scan: toggle `inFence` on a fence line. -/
def fenceStep (f : Bool) (raw : List Char) : Bool :=
  if fenceLine (trimStart (trimEnd raw)) then !f else f

/-- The `inFence` flag after scanning the given lines. -/
def fenceState (lines : List (List Char)) (f : Bool) : Bool :=
  lines.foldl fenceStep f

/-- Result of the heading regex `^(#{1,3})\s+(.+)$` applied to an already
trimmed line, together with the later `match[2].trim()`:
`some (level, trimmed text)` on a match.  (A match whose group 2 is all
whitespace and the source's separate empty-text skip produce the same
"no entry" outcome; here such a line yields `some (k, [])` and the caller
skips it, mirroring `if (!text) continue`.) -/
def headingMatch (t : List Char) : Option (Nat × List Char) :=
  let k := (t.takeWhile (fun c => c = '#')).length
  if 1 ≤ k ∧ k ≤ 3 then
    match t.drop k with
    | [] => none
    | c :: rest =>
      if isWs c then some (k, trimEnd ((c :: rest).dropWhile isWs))
      else none
  else none

/-- Core of `text.replace(/\s+/g, '-')`: `inRun` records whether the
previous character belonged to a whitespace run (which already emitted its
single hyphen). -/
def replaceWsGo (inRun : Bool) : List Char → List Char
  | [] => []
  | c :: t =>
    if isWs c then
      if inRun then replaceWsGo true t else '-' :: replaceWsGo true t
    else c :: replaceWsGo false t

/-- Replace every whitespace run by a single hyphen: `text.replace(/\s+/g, '-')`. -/
def replaceWs (l : List Char) : List Char := replaceWsGo false l

/-- Slug of a heading text: `text.replace(/\s+/g, '-').toLowerCase()`. -/
def slugOf (txt : List Char) : List Char := (replaceWs txt).map Char.toLower

/-- Anchor of a heading: `` `h${level}-${slug}` ``. -/
def anchorOf (level : Nat) (txt : List Char) : List Char :=
  'h' :: (Nat.repr level).data ++ '-' :: slugOf txt

/-- A derived table-of-contents entry.  `parseTocFromMarkdown` (part_001)
produces `level`/`text`/`anchor`; `computedToc` (NodeDetailView.tsx)
additionally records the source `lineIndex`.  Both run the identical
fence-aware scan, modelled once by `tocGo`. -/
structure TocItem where
  level : Nat
  text : List Char
  anchor : List Char
  lineIndex : Nat
deriving DecidableEq, Repr

/-- The fence-aware heading scan shared by `parseTocFromMarkdown` and
`computedToc`: per raw line, `line = raw.trimEnd()`; a line whose
`trimStart` begins with three backticks toggles `inFence`; lines inside a
fence are ignored; otherwise the heading regex is applied to
`line.trimStart()` and an entry is pushed unless the trimmed text is empty. -/
def tocGo : List (List Char) → Nat → Bool → List TocItem
  | [], _, _ => []
  | raw :: rest, idx, inFence =>
    let t := trimStart (trimEnd raw)
    if fenceLine t then tocGo rest (idx + 1) (!inFence)
    else if inFence then tocGo rest (idx + 1) inFence
    else
      match headingMatch t with
      | some kv =>
        if kv.2 = [] then tocGo rest (idx + 1) inFence
        else ⟨kv.1, kv.2, anchorOf kv.1 kv.2, idx⟩ :: tocGo rest (idx + 1) inFence
      | none => tocGo rest (idx + 1) inFence

/-- TOC of a list of lines, starting outside any fence. -/
def tocLines (lines : List (List Char)) : List TocItem :=
  tocGo lines 0 false

/-- `parseTocFromMarkdown` (src/unnamed/part_001): `[]` on an empty (falsy)
string, else the fence-aware scan over `markdown.split('\n')`.  The
`lineIndex` field is extra relative to part_001 (which drops it); all other
fields are produced identically. -/
def parseTocFromMarkdown (md : List Char) : List TocItem :=
  if md = [] then [] else tocLines (splitNl md)

/-- `computedToc` (NodeDetailView.tsx): same scan, keeping `lineIndex`. -/
def computedToc (content : List Char) : List TocItem :=
  if content = [] then [] else tocLines (splitNl content)

/-! ## Overlay engine (`processContent`, NodeDetailView.tsx 863-956) -/

/-- A character range `{start, end}` (JS field `end` is `stop` here, `end`
being a Lean keyword). -/
structure Rng where
  start : Nat
  stop : Nat
deriving DecidableEq, Repr

/-- The entity kinds distinguished by the overlay engine's tag emission:
the annotation `type` strings `'favorite' | 'comment' | 'highlight' | 'note'`,
the synthetic `'animation'` kind, and `other` for any remaining/undefined
type (which, like `note`, emits no open tag). -/
inductive EKind where
  | favorite
  | comment
  | highlight
  | animation
  | note
  | other
deriving DecidableEq, Repr

/-- Whether a start marker of this kind emits an open tag (the four branches
of the open-tag `if` chain). -/
def emitsOpen : EKind → Bool
  | .favorite => true
  | .comment => true
  | .highlight => true
  | .animation => true
  | _ => false

/-- An annotation as consumed by the overlay engine: `range` is `none` for a
legacy record without a range; `text` is the annotated text (used by the
text-search fallback and the comment tooltip); `kind` is its `type`.
Author/timestamp fields are irrelevant to the engine and omitted. -/
structure Anno where
  id : List Char
  range : Option Rng
  text : List Char
  kind : EKind
deriving DecidableEq, Repr

/-- An animation record, with the fields of `anim.meta` the engine reads
(`meta.range`, `meta.note`) flattened in. -/
structure Anim where
  id : List Char
  range : Option Rng
  note : Option (List Char)
deriving DecidableEq, Repr

/-- A resolved overlay entity `{start, end, type, data}`; `id`/`text` are the
pieces of `data` the tag emission reads. -/
structure Entity where
  start : Nat
  stop : Nat
  kind : EKind
  id : List Char
  text : List Char
deriving DecidableEq, Repr

/-- Entity resolution for an annotation: a present `range` is used as stored
(`if (anno.range)`), otherwise a nonempty `text` is searched for its first
occurrence; an entity is produced only in those cases. -/
def resolveAnno (content : List Char) (a : Anno) : Option Entity :=
  match a.range with
  | some r => some ⟨r.start, r.stop, a.kind, a.id, a.text⟩
  | none =>
    if a.text = [] then none
    else
      match indexOfSub a.text content with
      | some i => some ⟨i, i + a.text.length, a.kind, a.id, a.text⟩
      | none => none

/-- Entity resolution for an animation: `anim.meta?.range` if present, else a
first-occurrence search for `anim.meta?.note`. -/
def resolveAnim (content : List Char) (an : Anim) : Option Entity :=
  match an.range with
  | some r => some ⟨r.start, r.stop, .animation, an.id, an.note.getD []⟩
  | none =>
    match an.note with
    | some nt =>
      if nt = [] then none
      else
        match indexOfSub nt content with
        | some i => some ⟨i, i + nt.length, .animation, an.id, nt⟩
        | none => none
    | none => none

/-- The range validity check guarding marker creation:
`e.start >= 0 && e.end <= content.length && e.start < e.end`
(`start >= 0` is vacuous over `Nat`). -/
def validEntity (e : Entity) (len : Nat) : Bool :=
  decide (e.stop ≤ len) && decide (e.start < e.stop)

/-- Marker type: `'start' | 'end'`. -/
inductive MType where
  | mstart
  | mend
deriving DecidableEq, Repr

/-- A sweep marker `{index, type, entity}`; the entity is referenced by its
position `eIdx` in the entity list. -/
structure Marker where
  index : Nat
  mtype : MType
  eIdx : Nat
deriving DecidableEq, Repr

/-- Start marker of entity `i`. -/
def startMarker (e : Entity) (i : Nat) : Marker := ⟨e.start, .mstart, i⟩

/-- End marker of entity `i`. -/
def endMarker (e : Entity) (i : Nat) : Marker := ⟨e.stop, .mend, i⟩

/-- Marker creation (`entities.forEach` with index): two markers per entity
whose range passes the validity check. -/
def buildMarkersGo (len : Nat) : List Entity → Nat → List Marker
  | [], _ => []
  | e :: rest, i =>
    (if validEntity e len then [startMarker e i, endMarker e i] else []) ++
      buildMarkersGo len rest (i + 1)

/-- All markers of an entity list. -/
def buildMarkers (es : List Entity) (len : Nat) : List Marker :=
  buildMarkersGo len es 0

/-- The comparator's non-strict order: offset ascending, and at equal offsets
`'end'` before `'start'` (`a.type === 'end' ? -1 : 1`). -/
def markerLe (a b : Marker) : Bool :=
  decide (a.index < b.index) ||
    (decide (a.index = b.index) &&
      (decide (a.mtype = MType.mend) || decide (b.mtype = MType.mstart)))

/-- `markerLe` as a relation, for Mathlib's `insertionSort`. -/
def MarkerR (a b : Marker) : Prop := markerLe a b = true

instance : DecidableRel MarkerR := fun a b => instDecidableEqBool (markerLe a b) true

instance : IsTotal Marker MarkerR :=
  ⟨by
    intro a b
    simp only [MarkerR, markerLe, Bool.or_eq_true, Bool.and_eq_true, decide_eq_true_eq]
    rcases Nat.lt_trichotomy a.index b.index with h | h | h
    · exact Or.inl (Or.inl h)
    · cases ha : a.mtype
      · exact Or.inr (Or.inr ⟨h.symm, Or.inr rfl⟩)
      · exact Or.inl (Or.inr ⟨h, Or.inl rfl⟩)
    · exact Or.inr (Or.inl h)⟩

instance : IsTrans Marker MarkerR :=
  ⟨by
    intro a b c hab hbc
    simp only [MarkerR, markerLe, Bool.or_eq_true, Bool.and_eq_true,
      decide_eq_true_eq] at hab hbc ⊢
    rcases hab with h1 | ⟨h1, d1⟩ <;> rcases hbc with h2 | ⟨h2, d2⟩
    · exact Or.inl (by omega)
    · exact Or.inl (by omega)
    · exact Or.inl (by omega)
    · refine Or.inr ⟨by omega, ?_⟩
      rcases d1 with d1 | d1
      · exact Or.inl d1
      · rcases d2 with d2 | d2
        · rw [d1] at d2; exact absurd d2 (by simp)
        · exact Or.inr d2⟩

/-- The marker sort (JS stable `Array.prototype.sort` with the comparator,
modelled by stable insertion sort). -/
def sortMarkers (ms : List Marker) : List Marker :=
  List.insertionSort MarkerR ms

/-- Whether a marker is the `mt`-marker of entity index `k`. -/
def isMarkOf (mt : MType) (k : Nat) (m : Marker) : Bool :=
  decide (m.mtype = mt) && decide (m.eIdx = k)

/-- One piece of the output markup: a verbatim text segment, or the open/close
tag of the entity at position `i` of the entity list. -/
inductive Piece where
  | text (s : List Char)
  | openTag (i : Nat)
  | closeTag (i : Nat)
deriving DecidableEq, Repr

/-- Whether a piece is a tag (not verbatim text). -/
def isTag : Piece → Bool
  | .text _ => false
  | _ => true

/-- Whether the start marker of entity index `i` emits an open tag. -/
def openKind (es : List Entity) (i : Nat) : Bool :=
  match es.get? i with
  | some e => emitsOpen e.kind
  | none => false

/-- Pieces appended for one marker: an open tag for a start marker of a
tagged kind (nothing for `note`/unknown kinds), a close tag for every end
marker (the source emits `</a>` or `</span>` unconditionally). -/
def tagPieces (es : List Entity) (m : Marker) : List Piece :=
  match m.mtype with
  | .mstart => if openKind es m.eIdx then [Piece.openTag m.eIdx] else []
  | .mend => [Piece.closeTag m.eIdx]

/-- The marker sweep (`markers.forEach` plus the trailing slice): before each
marker the verbatim text since `lastIndex` is copied when the marker lies
strictly beyond it, then the marker's tag pieces are emitted; after the last
marker the remaining text is appended when any remains. -/
def sweep (content : List Char) (es : List Entity) : List Marker → Nat → List Piece
  | [], last =>
    if last < content.length then [Piece.text (content.drop last)] else []
  | m :: ms, last =>
    if last < m.index then
      Piece.text ((content.drop last).take (m.index - last)) ::
        (tagPieces es m ++ sweep content es ms m.index)
    else
      tagPieces es m ++ sweep content es ms last

/-- Marker construction, sort and sweep over an entity list. -/
def overlayPieces (content : List Char) (es : List Entity) : List Piece :=
  sweep content es (sortMarkers (buildMarkers es content.length)) 0

/-- `processContent(content, annotations, animations)` as a piece list:
empty content short-circuits to `''`; with no resolvable entities the content
is returned verbatim; otherwise markers are built, sorted and swept. -/
def processContent (content : List Char) (annos : List Anno) (anims : List Anim) :
    List Piece :=
  if content = [] then []
  else
    let entities :=
      annos.filterMap (resolveAnno content) ++ anims.filterMap (resolveAnim content)
    if entities = [] then [Piece.text content]
    else overlayPieces content entities

/-- The rendered string of a piece, giving the source's tag vocabulary. -/
def renderPiece (es : List Entity) : Piece → List Char
  | .text s => s
  | .openTag i =>
    match es.get? i with
    | some e =>
      match e.kind with
      | .favorite =>
        "<span id=\"fav-".data ++ e.id ++ "\" class=\"favorite-highlight\" data-favorite-id=\"".data
          ++ e.id ++ "\">".data
      | .comment => "<span class=\"annotation-highlight\" title=\"".data ++ e.text ++ "\">".data
      | .highlight => "<a href=\"highlight:true\">".data
      | .animation => "<span class=\"animation-link\" data-animation-id=\"".data ++ e.id ++ "\">".data
      | _ => []
    | none => []
  | .closeTag i =>
    match es.get? i with
    | some e => if e.kind = .highlight then "</a>".data else "</span>".data
    | none => "</span>".data

/-- Stripping the tags: concatenation of the verbatim text pieces. -/
def stripPieces : List Piece → List Char
  | [] => []
  | Piece.text s :: ps => s ++ stripPieces ps
  | _ :: ps => stripPieces ps

/-! ## Section extraction (`renderMindmapContent`, NodeDetailView.tsx 959-1025) -/

/-- The running line-start offsets pushed after the initial `0`:
`total += line.length + 1; lineStartIndices.push(total)`. -/
def lineStartsFrom (acc : Nat) : List (List Char) → List Nat
  | [] => []
  | l :: ls => (acc + l.length + 1) :: lineStartsFrom (acc + l.length + 1) ls

/-- `lineStartIndices`: `[0]` followed by the cumulative offsets. -/
def lineStartIndices (lines : List (List Char)) : List Nat :=
  0 :: lineStartsFrom 0 lines

/-- `totalLength` after the loop: sum of `line.length + 1`. -/
def totalLen (lines : List (List Char)) : Nat :=
  lines.foldl (fun a l => a + l.length + 1) 0

/-- JS `xs[i] || dflt`: the default on an out-of-bounds read (`undefined`)
and also on the falsy value `0`. -/
def jsIdxOr (xs : List Nat) (i : Nat) (dflt : Nat) : Nat :=
  match xs.get? i with
  | some v => if v = 0 then dflt else v
  | none => dflt

/-- Find the TOC entry with the given anchor and its index
(`computedToc.findIndex(t => t.anchor === selectedMindmapNode)`). -/
def findTocEntry (sel : List Char) : List TocItem → Nat → Option (Nat × TocItem)
  | [], _ => none
  | t :: ts, i => if t.anchor = sel then some (i, t) else findTocEntry sel ts (i + 1)

/-- The data `renderMindmapContent` computes for a section before rendering:
the standalone markdown (`prefix + content`), the section character bounds,
the prefix length (`offset`) and the remapped annotations. -/
structure SectionView where
  markdown : List Char
  sectionStartChar : Nat
  sectionEndChar : Nat
  prefixLen : Nat
  adjusted : List Anno
deriving DecidableEq, Repr

/-- The annotation remap: `{start: r.start - sectionStartChar + offset,
end: r.end - sectionStartChar + offset}` (Nat subtraction; the filter
guarantees `sectionStartChar ≤ r.start`, so the JS value is reproduced for
every well-formed range). -/
def remapA (s plen : Nat) (a : Anno) (r : Rng) : Anno :=
  { a with range := some ⟨r.start - s + plen, r.stop - s + plen⟩ }

/-- The filter-and-map over `node.annotations`: keep annotations whose
numeric `range.start` lies in `[sectionStartChar, sectionEndChar)`, then
shift both offsets by `offset - sectionStartChar`. -/
def adjustAnnos (annos : List Anno) (s e plen : Nat) : List Anno :=
  (annos.filter fun a =>
      match a.range with
      | some r => decide (s ≤ r.start) && decide (r.start < e)
      | none => false).map
    fun a =>
      match a.range with
      | some r => remapA s plen a r
      | none => a

/-- Section extraction of `renderMindmapContent` (the pure part feeding
`processContent`): `'root'` selects the pre-heading content with the
synthetic `# theme` prefix, an anchor selects its heading's section; `none`
models the early `return null` when the anchor is not in the TOC. -/
def extractSection (contentMd theme sel : List Char) (annos : List Anno) :
    Option SectionView :=
  let lines := splitNl contentMd
  let lsi := lineStartIndices lines
  let total := totalLen lines
  let toc := tocLines lines
  if sel = "root".data then
    let firstHeaderLine := match toc with
      | [] => lines.length
      | t :: _ => t.lineIndex
    let e := jsIdxOr lsi firstHeaderLine total
    let pre := "# ".data ++ theme ++ "\n\n".data
    let md := pre ++ joinNl (lines.take firstHeaderLine)
    some ⟨md, 0, e, pre.length, adjustAnnos annos 0 e pre.length⟩
  else
    match findTocEntry sel toc 0 with
    | none => none
    | some (i, item) =>
      let endLine := match toc.get? (i + 1) with
        | some nxt => nxt.lineIndex
        | none => lines.length
      let s := jsIdxOr lsi item.lineIndex 0
      let e := jsIdxOr lsi endLine total
      let md := joinNl ((lines.drop item.lineIndex).take (endLine - item.lineIndex))
      some ⟨md, s, e, 0, adjustAnnos annos s e 0⟩

/-! ## Mind-map hierarchy (the `mindmapData` effect, NodeDetailView.tsx 283-394) -/

/-- A projected mind-map node; decoration fields (`position`, `hasContent`,
`stats`) do not affect the hierarchy and are omitted. -/
structure MMNode where
  id : List Char
  text : List Char
  parentId : Option (List Char)
deriving DecidableEq, Repr

/-- A projected mind-map edge. -/
structure MMEdge where
  id : List Char
  fromId : List Char
  toId : List Char
deriving DecidableEq, Repr

/-- Pop the hierarchy stack while (keeping at least the root) its top has
level `≥` the current heading's level. -/
def popStack (lv : Nat) : List (List Char × Nat) → List (List Char × Nat)
  | [] => []
  | [p] => [p]
  | p :: ps => if lv ≤ p.2 then popStack lv ps else p :: ps

/-- The stack walk over the TOC entries: each entry's node id is its anchor
(or `node-${index}` if that is empty), its parent is the stack top after
popping. -/
def mmGo : List TocItem → Nat → List (List Char × Nat) → List MMNode × List MMEdge
  | [], _, _ => ([], [])
  | it :: rest, idx, stack =>
    let id := if it.anchor = [] then "node-".data ++ (Nat.repr idx).data else it.anchor
    let stack' := popStack it.level stack
    let parent := stack'.headD ("root".data, 0)
    let tail := mmGo rest (idx + 1) ((id, it.level) :: stack')
    (⟨id, it.text, some parent.1⟩ :: tail.1,
      ⟨"edge-".data ++ parent.1 ++ '-' :: id, parent.1, id⟩ :: tail.2)

/-- The mind-map of a document: `none` when the TOC is empty (the effect
stores `null`), else the synthetic root (no `parentId`) followed by one node
and one edge per heading, hierarchised by the level stack seeded with
`{id: 'root', level: 0}`. -/
def mindmapData (content theme : List Char) : Option (List MMNode × List MMEdge) :=
  let toc := computedToc content
  if toc = [] then none
  else
    let tail := mmGo toc 0 [("root".data, 0)]
    some (⟨"root".data, theme, none⟩ :: tail.1, tail.2)

/-! ## Graph store (`deleteNode` / `addEdge`, appStore.ts 243-295) -/

/-- A stored node (the fields relevant to the graph shape; remaining fields
ride along unchanged through the store operations and are omitted). -/
structure StoreNode where
  id : List Char
  parentId : Option (List Char)
  theme : List Char
deriving DecidableEq, Repr

/-- A stored edge. -/
structure StoreEdge where
  id : List Char
  fromNodeId : List Char
  toNodeId : List Char
deriving DecidableEq, Repr

/-- The store's graph state (`nodes`/`edges`; `currentProject` mirrors the
same two filtered lists and is not duplicated here). -/
structure AppState where
  nodes : List StoreNode
  edges : List StoreEdge
deriving DecidableEq, Repr

/-- `deleteNode(nodeId)`: drop the node and every edge touching it. -/
def deleteNode (st : AppState) (nodeId : List Char) : AppState :=
  { nodes := st.nodes.filter fun n => decide (n.id ≠ nodeId)
    edges := st.edges.filter fun e =>
      decide (e.fromNodeId ≠ nodeId) && decide (e.toNodeId ≠ nodeId) }

/-- `addEdge(edge)`: return the state unchanged when an edge with the same id
exists (`findIndex !== -1`), else append. -/
def addEdge (st : AppState) (e : StoreEdge) : AppState :=
  if st.edges.any fun e' => decide (e'.id = e.id) then st
  else { st with edges := st.edges ++ [e] }

/-! ## Import normalization (`normalizeAnnotation`, SettingsPanel.tsx 24-53) -/

/-- A raw range record from imported JSON: `none` fields model non-numeric
values (`typeof raw.range.start !== 'number'`). -/
structure RawRange where
  start : Option Nat
  stop : Option Nat
deriving DecidableEq, Repr

/-- A raw annotation record from imported JSON (`none` models an absent or
wrongly-typed field; `crypto.randomUUID()` for a missing id is modelled by a
fixed placeholder, its value being irrelevant to rendering). -/
structure RawAnno where
  id : Option (List Char)
  range : Option RawRange
  text : Option (List Char)
  kind : Option EKind
deriving DecidableEq, Repr

/-- The normalizer: a record range yields
`{start: numeric start or 0, end: numeric end or 0}`; an absent/non-record
range yields `{start: 0, end: 0}`; the result always carries a range. -/
def normalizeAnno (raw : RawAnno) : Anno :=
  { id := raw.id.getD "uuid".data
    range := some (match raw.range with
      | some rr => ⟨rr.start.getD 0, rr.stop.getD 0⟩
      | none => ⟨0, 0⟩)
    text := raw.text.getD []
    kind := raw.kind.getD .other }

/-! ## Concrete instances used by witnesses -/

/-- A concrete highlight entity over `[0,1)` of `"ab"`. -/
def entA : Entity := ⟨0, 1, .highlight, "x".data, "t".data⟩

/-- A concrete comment entity over `[1,2)` of `"ab"`, adjacent to `entA`. -/
def entB : Entity := ⟨1, 2, .comment, "y".data, "u".data⟩

/-- The annotation of the section-remap example: it covers `"body"` in
`"pre\n# H\nbody"` (offsets 8 to 12). -/
def annoEx : Anno := ⟨"a1".data, some ⟨8, 12⟩, "body".data, .comment⟩

/-- The section view produced for anchor `h1-h` of `"pre\n# H\nbody"`. -/
def svEx : SectionView :=
  ⟨"# H\nbody".data, 4, 13, 0, [⟨"a1".data, some ⟨4, 8⟩, "body".data, .comment⟩]⟩

/-- An annotation whose stored range `[5,7)` is invalid for the text `"abc"`
while its text `"abc"` does occur in the document. -/
def annoInvalid : Anno := ⟨"a2".data, some ⟨5, 7⟩, "abc".data, .highlight⟩

/-- A raw imported annotation with no `range` field at all. -/
def rawEx : RawAnno := ⟨some "r1".data, none, some "abc".data, some .comment⟩

/-! ## Generic list lemmas -/

theorem mem_exists_get? {α : Type} {a : α} {l : List α} (h : a ∈ l) :
    ∃ n, l.get? n = some a := by
  induction l with
  | nil => cases h
  | cons b t ih =>
    rcases List.mem_cons.mp h with rfl | h'
    · exact ⟨0, rfl⟩
    · obtain ⟨n, hn⟩ := ih h'
      exact ⟨n + 1, hn⟩

theorem sublist_get?_order {α : Type} {s l : List α} (h : s.Sublist l) :
    ∀ i j x y, i < j → s.get? i = some x → s.get? j = some y →
      ∃ p q, p < q ∧ l.get? p = some x ∧ l.get? q = some y := by
  induction h with
  | slnil => intro i j x y _ hx _; cases i <;> simp at hx
  | cons a hsub ih =>
    intro i j x y hij hx hy
    obtain ⟨p, q, hpq, hp, hq⟩ := ih i j x y hij hx hy
    exact ⟨p + 1, q + 1, by omega, hp, hq⟩
  | cons₂ a hsub ih =>
    rename_i s₁ l₁
    intro i j x y hij hx hy
    cases i with
    | zero =>
      cases j with
      | zero => omega
      | succ j' =>
        have hxa : a = x := by simpa using hx
        have hy1 : s₁.get? j' = some y := hy
        obtain ⟨q, hq⟩ := mem_exists_get? (hsub.subset (List.get?_mem hy1))
        exact ⟨0, q + 1, by omega, by simp [hxa], hq⟩
    | succ i' =>
      cases j with
      | zero => omega
      | succ j' =>
        obtain ⟨p, q, hpq, hp, hq⟩ := ih i' j' x y (by omega) hx hy
        exact ⟨p + 1, q + 1, by omega, hp, hq⟩

theorem get?_unique_of_countP {α : Type} [DecidableEq α] (x : α) :
    ∀ (l : List α) (i j : Nat),
      l.countP (fun y => decide (y = x)) = 1 →
      l.get? i = some x → l.get? j = some x → i = j := by
  intro l
  induction l with
  | nil => intro i j _ hi _; cases i <;> simp at hi
  | cons a t ih =>
    intro i j hc hi hj
    by_cases hax : a = x
    · subst hax
      have ht : t.countP (fun y => decide (y = a)) = 0 := by
        rw [List.countP_cons, if_pos (show decide (a = a) = true by simp)] at hc
        omega
      have hxt : a ∉ t := by
        intro hm
        have := (List.countP_eq_zero.mp ht) a hm
        simp at this
      cases i with
      | zero =>
        cases j with
        | zero => rfl
        | succ j' =>
          have hj1 : t.get? j' = some a := hj
          exact absurd (List.get?_mem hj1) hxt
      | succ i' =>
        have hi1 : t.get? i' = some a := hi
        exact absurd (List.get?_mem hi1) hxt
    · cases i with
      | zero =>
        have : a = x := by simpa using hi
        exact absurd this hax
      | succ i' =>
        cases j with
        | zero =>
          have : a = x := by simpa using hj
          exact absurd this hax
        | succ j' =>
          have hc' : t.countP (fun y => decide (y = x)) = 1 := by
            simp [List.countP_cons, hax] at hc
            omega
          have := ih i' j' hc' hi hj
          omega

theorem pairwise_split {α : Type} {R : α → α → Prop} :
    ∀ {l : List α} {x y : α}, List.Pairwise R l → x ∈ l → y ∈ l → x ≠ y → ¬ R y x →
      ∃ l1 l2, l = l1 ++ x :: l2 ∧ y ∈ l2 := by
  intro l
  induction l with
  | nil => intro x y _ hx; cases hx
  | cons z t ih =>
    intro x y hpw hx hy hne hnR
    by_cases hzx : z = x
    · subst hzx
      refine ⟨[], t, rfl, ?_⟩
      rcases List.mem_cons.mp hy with h | h
      · exact absurd h.symm hne
      · exact h
    · have hx' : x ∈ t := by
        rcases List.mem_cons.mp hx with h | h
        · exact absurd h.symm hzx
        · exact h
      have hy' : y ∈ t := by
        rcases List.mem_cons.mp hy with h | h
        · subst h
          exact absurd ((List.pairwise_cons.mp hpw).1 x hx') hnR
        · exact h
      obtain ⟨l1, l2, heq, hy2⟩ := ih (List.Pairwise.of_cons hpw) hx' hy' hne hnR
      exact ⟨z :: l1, l2, by rw [heq]; rfl, hy2⟩

theorem pairwise_get?_rel {α : Type} {R : α → α → Prop} {l : List α}
    (h : List.Pairwise R l) {i j : Nat} {x y : α} (hij : i < j)
    (hx : l.get? i = some x) (hy : l.get? j = some y) : R x y := by
  rw [List.get?_eq_some] at hx hy
  obtain ⟨hi, rfl⟩ := hx
  obtain ⟨hj, rfl⟩ := hy
  exact List.pairwise_iff_get.mp h ⟨i, hi⟩ ⟨j, hj⟩ hij

/-! ## Marker-order lemmas -/

theorem markerLe_iff {a b : Marker} :
    markerLe a b = true ↔
      a.index < b.index ∨
        (a.index = b.index ∧ (a.mtype = MType.mend ∨ b.mtype = MType.mstart)) := by
  simp [markerLe]

theorem markerLe_index {a b : Marker} (h : markerLe a b = true) : a.index ≤ b.index := by
  rcases markerLe_iff.mp h with h | ⟨h, _⟩ <;> omega

theorem sortMarkers_perm (ms : List Marker) : (sortMarkers ms).Perm ms :=
  List.perm_insertionSort MarkerR ms

theorem sortMarkers_sorted (ms : List Marker) :
    List.Pairwise MarkerR (sortMarkers ms) :=
  List.sorted_insertionSort MarkerR ms

/-! ## Round-trip of the overlay sweep (C1) -/

theorem stripPieces_append (ps qs : List Piece) :
    stripPieces (ps ++ qs) = stripPieces ps ++ stripPieces qs := by
  induction ps with
  | nil => rfl
  | cons p t ih => cases p <;> simp [stripPieces, ih]

theorem stripPieces_tagPieces (es : List Entity) (m : Marker) :
    stripPieces (tagPieces es m) = [] := by
  cases m with
  | mk idx mt ei =>
    cases mt
    · show stripPieces (if openKind es ei then [Piece.openTag ei] else []) = []
      by_cases h : openKind es ei <;> simp [h, stripPieces]
    · rfl

theorem stripPieces_sweep (content : List Char) (es : List Entity) :
    ∀ (ms : List Marker) (last : Nat),
      List.Pairwise MarkerR ms →
      (∀ m ∈ ms, m.index ≤ content.length) →
      (∀ m ∈ ms, last ≤ m.index) →
      last ≤ content.length →
      stripPieces (sweep content es ms last) = content.drop last := by
  intro ms
  induction ms with
  | nil =>
    intro last _ _ _ hlast
    by_cases h : last < content.length
    · simp [sweep, h, stripPieces]
    · have hd : content.drop last = [] := List.drop_eq_nil_of_le (by omega)
      simp [sweep, h, hd, stripPieces]
  | cons m ms ih =>
    intro last hpw hbound hge hlast
    have hml : last ≤ m.index := hge m (List.mem_cons_self m ms)
    have hmlen : m.index ≤ content.length := hbound m (List.mem_cons_self m ms)
    have hpw' := List.Pairwise.of_cons hpw
    have hrel : ∀ x ∈ ms, MarkerR m x := (List.pairwise_cons.mp hpw).1
    by_cases h : last < m.index
    · have hrest :
          stripPieces (sweep content es ms m.index) = content.drop m.index :=
        ih m.index hpw' (fun x hx => hbound x (List.mem_cons_of_mem _ hx))
          (fun x hx => markerLe_index (hrel x hx)) hmlen
      have h2 : last + (m.index - last) = m.index := by omega
      calc stripPieces (sweep content es (m :: ms) last)
          = (content.drop last).take (m.index - last) ++
              (stripPieces (tagPieces es m) ++ stripPieces (sweep content es ms m.index)) := by
            simp [sweep, h, stripPieces, stripPieces_append]
        _ = (content.drop last).take (m.index - last) ++
              (content.drop last).drop (m.index - last) := by
            rw [stripPieces_tagPieces, hrest, List.nil_append, List.drop_drop, h2]
        _ = content.drop last := List.take_append_drop _ _
    · have hrest :
          stripPieces (sweep content es ms last) = content.drop last :=
        ih last hpw' (fun x hx => hbound x (List.mem_cons_of_mem _ hx))
          (fun x hx => by have := markerLe_index (hrel x hx); omega) hlast
      calc stripPieces (sweep content es (m :: ms) last)
          = stripPieces (tagPieces es m) ++ stripPieces (sweep content es ms last) := by
            simp [sweep, h, stripPieces_append]
        _ = content.drop last := by rw [stripPieces_tagPieces, hrest, List.nil_append]

theorem mem_buildMarkersGo_index_le (len : Nat) :
    ∀ (es : List Entity) (i : Nat) (m : Marker),
      m ∈ buildMarkersGo len es i → m.index ≤ len := by
  intro es
  induction es with
  | nil => intro i m h; simp [buildMarkersGo] at h
  | cons e rest ih =>
    intro i m h
    simp only [buildMarkersGo, List.mem_append] at h
    rcases h with h | h
    · by_cases hv : validEntity e len = true
      · have hprop : e.stop ≤ len ∧ e.start < e.stop := by
          simpa [validEntity] using hv
        simp [hv] at h
        rcases h with rfl | rfl
        · simp [startMarker]; omega
        · simp [endMarker]; omega
      · simp [hv] at h
    · exact ih (i + 1) m h

theorem mem_buildMarkersGo_eIdx_ge (len : Nat) :
    ∀ (es : List Entity) (i : Nat) (m : Marker),
      m ∈ buildMarkersGo len es i → i ≤ m.eIdx := by
  intro es
  induction es with
  | nil => intro i m h; simp [buildMarkersGo] at h
  | cons e rest ih =>
    intro i m h
    simp only [buildMarkersGo, List.mem_append] at h
    rcases h with h | h
    · by_cases hv : validEntity e len = true
      · simp [hv] at h
        rcases h with rfl | rfl
        · simp [startMarker]
        · simp [endMarker]
      · simp [hv] at h
    · have := ih (i + 1) m h
      omega

/-! ## Tag order in the overlay output (C2) -/

theorem filter_isTag_tagPieces (es : List Entity) (m : Marker) :
    (tagPieces es m).filter isTag = tagPieces es m := by
  cases m with
  | mk idx mt ei =>
    cases mt
    · by_cases h : openKind es ei <;> simp [tagPieces, h, isTag]
    · simp [tagPieces, isTag]

theorem filter_isTag_sweep (content : List Char) (es : List Entity) :
    ∀ (ms : List Marker) (last : Nat),
      (sweep content es ms last).filter isTag = ms.flatMap (tagPieces es) := by
  intro ms
  induction ms with
  | nil =>
    intro last
    by_cases h : last < content.length <;> simp [sweep, h, isTag]
  | cons m ms ih =>
    intro last
    by_cases h : last < m.index <;>
      simp [sweep, h, isTag, List.filter_append, filter_isTag_tagPieces, ih]

theorem countP_closeTag_bind (es : List Entity) (k : Nat) :
    ∀ ms : List Marker,
      ((ms.flatMap (tagPieces es)).countP fun p => decide (p = Piece.closeTag k)) =
        ms.countP (isMarkOf MType.mend k) := by
  intro ms
  induction ms with
  | nil => rfl
  | cons m t ih =>
    have hper : ((tagPieces es m).countP fun p => decide (p = Piece.closeTag k)) =
        if isMarkOf MType.mend k m = true then 1 else 0 := by
      cases hm : m.mtype
      · by_cases ho : openKind es m.eIdx <;>
          simp [tagPieces, hm, isMarkOf, ho, List.countP_cons]
      · by_cases he : m.eIdx = k <;>
          simp [tagPieces, hm, isMarkOf, he, List.countP_cons]
    rw [List.flatMap_cons, List.countP_append, ih, List.countP_cons, hper]
    omega

theorem countP_openTag_bind (es : List Entity) (k : Nat) (hk : openKind es k = true) :
    ∀ ms : List Marker,
      ((ms.flatMap (tagPieces es)).countP fun p => decide (p = Piece.openTag k)) =
        ms.countP (isMarkOf MType.mstart k) := by
  intro ms
  induction ms with
  | nil => rfl
  | cons m t ih =>
    have hper : ((tagPieces es m).countP fun p => decide (p = Piece.openTag k)) =
        if isMarkOf MType.mstart k m = true then 1 else 0 := by
      cases hm : m.mtype
      · by_cases he : m.eIdx = k
        · simp [tagPieces, hm, isMarkOf, he, hk, List.countP_cons]
        · by_cases ho : openKind es m.eIdx <;>
            simp [tagPieces, hm, isMarkOf, he, ho, List.countP_cons]
      · simp [tagPieces, hm, isMarkOf, List.countP_cons]
    rw [List.flatMap_cons, List.countP_append, ih, List.countP_cons, hper]
    omega

theorem buildMarkersGo_mem_markers (len : Nat) :
    ∀ (es : List Entity) (i j : Nat) (e : Entity), es.get? j = some e →
      validEntity e len = true →
      startMarker e (i + j) ∈ buildMarkersGo len es i ∧
        endMarker e (i + j) ∈ buildMarkersGo len es i := by
  intro es
  induction es with
  | nil => intro i j e h; cases j <;> simp at h
  | cons e' rest ih =>
    intro i j e hj hv
    cases j with
    | zero =>
      have he : e' = e := by simpa using hj
      subst he
      simp only [buildMarkersGo, List.mem_append, Nat.add_zero]
      exact ⟨Or.inl (by simp [hv]), Or.inl (by simp [hv])⟩
    | succ j' =>
      have harith : i + (j' + 1) = (i + 1) + j' := by omega
      rw [harith]
      have := ih (i + 1) j' e hj hv
      simp only [buildMarkersGo, List.mem_append]
      exact ⟨Or.inr this.1, Or.inr this.2⟩

theorem countP_buildMarkersGo (len : Nat) (mt : MType) :
    ∀ (es : List Entity) (i j : Nat) (e : Entity), es.get? j = some e →
      ((buildMarkersGo len es i).countP (isMarkOf mt (i + j))) =
        if validEntity e len = true then 1 else 0 := by
  intro es
  induction es with
  | nil => intro i j e h; cases j <;> simp at h
  | cons e' rest ih =>
    intro i j e hj
    cases j with
    | zero =>
      have he : e' = e := by simpa using hj
      subst he
      have htail0 : (buildMarkersGo len rest (i + 1)).countP (isMarkOf mt i) = 0 := by
        apply List.countP_eq_zero.mpr
        intro m hm
        have hge := mem_buildMarkersGo_eIdx_ge len rest (i + 1) m hm
        simp only [isMarkOf, Bool.and_eq_true, decide_eq_true_eq, not_and]
        intro _
        omega
      simp only [buildMarkersGo, List.countP_append, Nat.add_zero]
      rw [htail0]
      by_cases hv : validEntity e' len = true
      · cases mt <;>
          simp [hv, startMarker, endMarker, isMarkOf, List.countP_cons]
      · simp [hv]
    | succ j' =>
      have hne : i ≠ i + (j' + 1) := by omega
      have hfront0 :
          ((if validEntity e' len = true then [startMarker e' i, endMarker e' i]
              else []) : List Marker).countP (isMarkOf mt (i + (j' + 1))) = 0 := by
        by_cases hv : validEntity e' len = true <;>
          simp [hv, startMarker, endMarker, isMarkOf, List.countP_cons, hne]
      simp only [buildMarkersGo, List.countP_append, hfront0, Nat.zero_add]
      have harith : i + (j' + 1) = (i + 1) + j' := by omega
      rw [harith]
      exact ih (i + 1) j' e hj

theorem countP_filter_eq {α : Type} (p q : α → Bool) (himp : ∀ x, p x = true → q x = true) :
    ∀ l : List α, (l.filter q).countP p = l.countP p := by
  intro l
  induction l with
  | nil => rfl
  | cons a t ih =>
    by_cases hq : q a = true
    · rw [List.filter_cons_of_pos hq, List.countP_cons, List.countP_cons, ih]
    · have hp : p a = false := by
        cases hpa : p a
        · rfl
        · exact absurd (himp a hpa) (by simp [hq])
      rw [List.filter_cons_of_neg (by simp [hq]), List.countP_cons, ih, hp]
      simp

/-- C2: the overlay engine's sorted marker list is ordered by the comparator
(offset ascending; at equal offsets every `end` marker precedes every
`start` marker), and consequently, for any two entities A and B of the
entity list with `A.range.end == B.range.start` (both ranges valid, B of a
tag-emitting kind), the close tag of A appears in the overlay output
strictly before the open tag of B, so adjacent non-overlapping regions never
produce nested tags. -/
theorem c2_marker_tiebreak (content : List Char) (es : List Entity) (a b : Nat)
    (ea eb : Entity) (hea : es.get? a = some ea) (heb : es.get? b = some eb)
    (hva : validEntity ea content.length = true)
    (hvb : validEntity eb content.length = true)
    (hadj : ea.stop = eb.start) (hob : emitsOpen eb.kind = true) :
    List.Pairwise MarkerR (sortMarkers (buildMarkers es content.length)) ∧
    (∀ i j mi mj,
        (sortMarkers (buildMarkers es content.length)).get? i = some mi →
        (sortMarkers (buildMarkers es content.length)).get? j = some mj →
        mi.index = mj.index → mi.mtype = MType.mend → mj.mtype = MType.mstart →
        i < j) ∧
    (∃ i, (overlayPieces content es).get? i = some (Piece.closeTag a)) ∧
    (∃ j, (overlayPieces content es).get? j = some (Piece.openTag b)) ∧
    (∀ i j, (overlayPieces content es).get? i = some (Piece.closeTag a) →
        (overlayPieces content es).get? j = some (Piece.openTag b) → i < j) := by
  have hsorted := sortMarkers_sorted (buildMarkers es content.length)
  have hperm := sortMarkers_perm (buildMarkers es content.length)
  have hconj2 : ∀ i j mi mj,
      (sortMarkers (buildMarkers es content.length)).get? i = some mi →
      (sortMarkers (buildMarkers es content.length)).get? j = some mj →
      mi.index = mj.index → mi.mtype = MType.mend → mj.mtype = MType.mstart →
      i < j := by
    intro i j mi mj hi hj hidx hmi hmj
    have hne : i ≠ j := by
      intro h
      subst h
      rw [hi] at hj
      injection hj with h2
      subst h2
      rw [hmi] at hmj
      exact MType.noConfusion hmj
    rcases Nat.lt_or_ge i j with hlt | hge
    · exact hlt
    · have hjlt : j < i := by omega
      have hrel := pairwise_get?_rel hsorted hjlt hj hi
      rcases markerLe_iff.mp hrel with h | ⟨h, hd⟩
      · omega
      · rcases hd with hd | hd
        · rw [hmj] at hd; exact absurd hd (by simp)
        · rw [hmi] at hd; exact absurd hd (by simp)
  have hmmA := buildMarkersGo_mem_markers content.length es 0 a ea hea hva
  have hmmB := buildMarkersGo_mem_markers content.length es 0 b eb heb hvb
  have hmemE : endMarker ea a ∈ sortMarkers (buildMarkers es content.length) := by
    apply hperm.mem_iff.mpr
    simpa [buildMarkers] using hmmA.2
  have hmemS : startMarker eb b ∈ sortMarkers (buildMarkers es content.length) := by
    apply hperm.mem_iff.mpr
    simpa [buildMarkers] using hmmB.1
  have hneq : endMarker ea a ≠ startMarker eb b := by
    intro h
    have := congrArg Marker.mtype h
    simp [startMarker, endMarker] at this
  have hnR : ¬ MarkerR (startMarker eb b) (endMarker ea a) := by
    simp [MarkerR, markerLe, startMarker, endMarker, hadj]
  obtain ⟨s1, s2, hLdec, hS2⟩ := pairwise_split hsorted hmemE hmemS hneq hnR
  have hkb : openKind es b = true := by
    unfold openKind
    rw [heb]
    exact hob
  have hT : (overlayPieces content es).filter isTag =
      (sortMarkers (buildMarkers es content.length)).flatMap (tagPieces es) :=
    filter_isTag_sweep content es _ 0
  have hTdec : (sortMarkers (buildMarkers es content.length)).flatMap (tagPieces es) =
      s1.flatMap (tagPieces es) ++ Piece.closeTag a :: s2.flatMap (tagPieces es) := by
    rw [hLdec, List.flatMap_append, List.flatMap_cons]
    rfl
  have hopen_mem : Piece.openTag b ∈ s2.flatMap (tagPieces es) := by
    apply List.mem_flatMap.mpr
    refine ⟨startMarker eb b, hS2, ?_⟩
    simp [tagPieces, startMarker, hkb]
  obtain ⟨q2, hq2⟩ := mem_exists_get? hopen_mem
  have hcntE :
      ((sortMarkers (buildMarkers es content.length)).countP (isMarkOf MType.mend a)) = 1 := by
    have h1 := countP_buildMarkersGo content.length MType.mend es 0 a ea hea
    rw [List.Perm.countP_eq _ hperm]
    simpa [buildMarkers, hva] using h1
  have hcntS :
      ((sortMarkers (buildMarkers es content.length)).countP (isMarkOf MType.mstart b)) = 1 := by
    have h1 := countP_buildMarkersGo content.length MType.mstart es 0 b eb heb
    rw [List.Perm.countP_eq _ hperm]
    simpa [buildMarkers, hvb] using h1
  have hccT :
      (((sortMarkers (buildMarkers es content.length)).flatMap (tagPieces es)).countP
        fun p => decide (p = Piece.closeTag a)) = 1 := by
    rw [countP_closeTag_bind]
    exact hcntE
  have hocT :
      (((sortMarkers (buildMarkers es content.length)).flatMap (tagPieces es)).countP
        fun p => decide (p = Piece.openTag b)) = 1 := by
    rw [countP_openTag_bind es b hkb]
    exact hcntS
  have himp_close : ∀ x : Piece, decide (x = Piece.closeTag a) = true → isTag x = true := by
    intro x hx
    simp at hx
    subst hx
    rfl
  have himp_open : ∀ x : Piece, decide (x = Piece.openTag b) = true → isTag x = true := by
    intro x hx
    simp at hx
    subst hx
    rfl
  have hccO : ((overlayPieces content es).countP fun p => decide (p = Piece.closeTag a)) = 1 := by
    rw [← countP_filter_eq _ isTag himp_close (overlayPieces content es), hT]
    exact hccT
  have hocO : ((overlayPieces content es).countP fun p => decide (p = Piece.openTag b)) = 1 := by
    rw [← countP_filter_eq _ isTag himp_open (overlayPieces content es), hT]
    exact hocT
  have hpcT : ((sortMarkers (buildMarkers es content.length)).flatMap (tagPieces es)).get?
      (s1.flatMap (tagPieces es)).length = some (Piece.closeTag a) := by
    rw [hTdec, List.get?_append_right (Nat.le_refl _)]
    simp
  have hpoT : ((sortMarkers (buildMarkers es content.length)).flatMap (tagPieces es)).get?
      ((s1.flatMap (tagPieces es)).length + (q2 + 1)) = some (Piece.openTag b) := by
    rw [hTdec, List.get?_append_right (by omega)]
    have harith : (s1.flatMap (tagPieces es)).length + (q2 + 1) -
        (s1.flatMap (tagPieces es)).length = q2 + 1 := by omega
    rw [harith]
    exact hq2
  have hTsub : ((sortMarkers (buildMarkers es content.length)).flatMap (tagPieces es)).Sublist
      (overlayPieces content es) := by
    have hsub := List.filter_sublist (p := isTag) (overlayPieces content es)
    rw [hT] at hsub
    exact hsub
  obtain ⟨p0, q0, hp0q0, hp0, hq0⟩ :=
    sublist_get?_order hTsub (s1.flatMap (tagPieces es)).length
      ((s1.flatMap (tagPieces es)).length + (q2 + 1)) (Piece.closeTag a) (Piece.openTag b)
      (by omega) hpcT hpoT
  refine ⟨hsorted, hconj2, ⟨p0, hp0⟩, ⟨q0, hq0⟩, ?_⟩
  intro i j hi hj
  have hip : i = p0 := get?_unique_of_countP (Piece.closeTag a) _ i p0 hccO hi hp0
  have hjq : j = q0 := get?_unique_of_countP (Piece.openTag b) _ j q0 hocO hj hq0
  omega

/-- Witness for C2: two adjacent entities over `"ab"` (highlight `[0,1)`,
comment `[1,2)`); the close tag of the first precedes the open tag of the
second in the overlay output. -/
theorem c2_marker_tiebreak_witness :
    validEntity entA ("ab".data).length = true ∧
    entA.stop = entB.start ∧
    ((∃ i, (overlayPieces "ab".data [entA, entB]).get? i = some (Piece.closeTag 0)) ∧
      (∃ j, (overlayPieces "ab".data [entA, entB]).get? j = some (Piece.openTag 1)) ∧
      (∀ i j, (overlayPieces "ab".data [entA, entB]).get? i = some (Piece.closeTag 0) →
          (overlayPieces "ab".data [entA, entB]).get? j = some (Piece.openTag 1) → i < j)) :=
  ⟨by decide, by decide, by
    have h := c2_marker_tiebreak "ab".data [entA, entB] 0 1 entA entB rfl rfl
      (by decide) (by decide) (by decide) (by decide)
    exact ⟨h.2.2.1, h.2.2.2.1, h.2.2.2.2⟩⟩

/-! ## Heading scan lemmas (C4, C7) -/

theorem fenceState_cons (p : List Char) (pre : List (List Char)) (f : Bool) :
    fenceState (p :: pre) f = fenceState pre (fenceStep f p) := rfl

theorem tocGo_append :
    ∀ (pre rest : List (List Char)) (idx : Nat) (f : Bool),
      tocGo (pre ++ rest) idx f =
        tocGo pre idx f ++ tocGo rest (idx + pre.length) (fenceState pre f) := by
  intro pre
  induction pre with
  | nil =>
    intro rest idx f
    simp [tocGo, fenceState]
  | cons p pre' ih =>
    intro rest idx f
    have harith : idx + (p :: pre').length = (idx + 1) + pre'.length := by
      simp [List.length_cons]
      omega
    rw [harith]
    by_cases hf : fenceLine (trimStart (trimEnd p)) = true
    · have hstep : fenceState (p :: pre') f = fenceState pre' (!f) := by
        rw [fenceState_cons]
        simp [fenceStep, hf]
      rw [hstep]
      have hL : tocGo ((p :: pre') ++ rest) idx f = tocGo (pre' ++ rest) (idx + 1) (!f) := by
        simp only [List.cons_append, tocGo, hf]
        simp
      have hR : tocGo (p :: pre') idx f = tocGo pre' (idx + 1) (!f) := by
        simp only [tocGo, hf]
        simp
      rw [hL, hR, ih]
    · have hstep : fenceState (p :: pre') f = fenceState pre' f := by
        rw [fenceState_cons]
        simp [fenceStep, hf]
      rw [hstep]
      cases f with
      | true =>
        have hL : tocGo ((p :: pre') ++ rest) idx true = tocGo (pre' ++ rest) (idx + 1) true := by
          simp only [List.cons_append, tocGo, hf]
          simp
        have hR : tocGo (p :: pre') idx true = tocGo pre' (idx + 1) true := by
          simp only [tocGo, hf]
          simp
        rw [hL, hR, ih]
      | false =>
        cases hm : headingMatch (trimStart (trimEnd p)) with
        | none =>
          have hL : tocGo ((p :: pre') ++ rest) idx false =
              tocGo (pre' ++ rest) (idx + 1) false := by
            simp only [List.cons_append, tocGo, hf, hm]
            simp
          have hR : tocGo (p :: pre') idx false = tocGo pre' (idx + 1) false := by
            simp only [tocGo, hf, hm]
            simp
          rw [hL, hR, ih]
        | some kv =>
          by_cases he : kv.2 = []
          · have hL : tocGo ((p :: pre') ++ rest) idx false =
                tocGo (pre' ++ rest) (idx + 1) false := by
              simp only [List.cons_append, tocGo, hf, hm, he]
              simp
            have hR : tocGo (p :: pre') idx false = tocGo pre' (idx + 1) false := by
              simp only [tocGo, hf, hm, he]
              simp
            rw [hL, hR, ih]
          · have hL : tocGo ((p :: pre') ++ rest) idx false =
                ⟨kv.1, kv.2, anchorOf kv.1 kv.2, idx⟩ :: tocGo (pre' ++ rest) (idx + 1) false := by
              simp only [List.cons_append, tocGo, hf, hm, he]
              simp
            have hR : tocGo (p :: pre') idx false =
                ⟨kv.1, kv.2, anchorOf kv.1 kv.2, idx⟩ :: tocGo pre' (idx + 1) false := by
              simp only [tocGo, hf, hm, he]
              simp
            rw [hL, hR, ih]
            simp

theorem tocGo_lineIndex_bounds :
    ∀ (lines : List (List Char)) (idx : Nat) (f : Bool) (item : TocItem),
      item ∈ tocGo lines idx f →
      idx ≤ item.lineIndex ∧ item.lineIndex < idx + lines.length := by
  intro lines
  induction lines with
  | nil => intro idx f item h; simp [tocGo] at h
  | cons p rest ih =>
    intro idx f item h
    have hlen : (p :: rest).length = rest.length + 1 := by simp
    rw [hlen]
    by_cases hf : fenceLine (trimStart (trimEnd p)) = true
    · have h' : item ∈ tocGo rest (idx + 1) (!f) := by
        simpa only [tocGo, hf, if_pos] using h
      have := ih (idx + 1) (!f) item h'
      omega
    · cases f with
      | true =>
        have h' : item ∈ tocGo rest (idx + 1) true := by
          simp only [tocGo, hf] at h
          simpa using h
        have := ih (idx + 1) true item h'
        omega
      | false =>
        cases hm : headingMatch (trimStart (trimEnd p)) with
        | none =>
          have h' : item ∈ tocGo rest (idx + 1) false := by
            simp only [tocGo, hf, hm] at h
            simpa using h
          have := ih (idx + 1) false item h'
          omega
        | some kv =>
          by_cases he : kv.2 = []
          · have h' : item ∈ tocGo rest (idx + 1) false := by
              simp only [tocGo, hf, hm, he] at h
              simpa using h
            have := ih (idx + 1) false item h'
            omega
          · have h' : item = ⟨kv.1, kv.2, anchorOf kv.1 kv.2, idx⟩ ∨
                item ∈ tocGo rest (idx + 1) false := by
              simp only [tocGo, hf, hm, he] at h
              simpa using h
            rcases h' with rfl | h'
            · refine ⟨Nat.le_refl _, ?_⟩
              show idx < idx + (rest.length + 1)
              omega
            · have := ih (idx + 1) false item h'
              omega

theorem headingMatch_head {t : List Char} {k : Nat} {txt : List Char}
    (h : headingMatch t = some (k, txt)) : ∃ t', t = '#' :: t' := by
  cases t with
  | nil => simp [headingMatch] at h
  | cons c t' =>
    by_cases hc : c = '#'
    · exact ⟨t', by rw [hc]⟩
    · exfalso
      simp [headingMatch, List.takeWhile_cons, hc] at h

theorem headingMatch_level {t : List Char} {k : Nat} {txt : List Char}
    (h : headingMatch t = some (k, txt)) : 1 ≤ k ∧ k ≤ 3 := by
  simp only [headingMatch] at h
  split at h
  · rename_i hcond
    split at h
    · exact absurd h (by simp)
    · rename_i c rest heq
      split at h
      · injection h with h1
        injection h1 with h2 h3
        subst h2
        exact hcond
      · exact absurd h (by simp)
  · exact absurd h (by simp)

theorem headingMatch_not_fence {t : List Char} {k : Nat} {txt : List Char}
    (h : headingMatch t = some (k, txt)) : fenceLine t = false := by
  obtain ⟨t', rfl⟩ := headingMatch_head h
  by_cases hf : fenceLine ('#' :: t') = true
  · exfalso
    have h1 : ∀ (l : List Char) (c : Char) (cs : List Char),
        l.isPrefixOf (c :: cs) = true → l = [] ∨ ∃ l', l = c :: l' := by
      intro l c cs hl
      cases l with
      | nil => exact Or.inl rfl
      | cons x xs =>
        simp [List.isPrefixOf] at hl
        exact Or.inr ⟨xs, by rw [hl.1]⟩
    rcases h1 fenceChars '#' t' hf with h2 | ⟨l', h2⟩
    · exact absurd h2 (by decide)
    · have h3 : fenceChars.head? = some '#' := by rw [h2]; rfl
      exact absurd h3 (by decide)
  · cases hfb : fenceLine ('#' :: t')
    · rfl
    · exact absurd hfb hf

/-- C4 (amended, counterexample `c4_toc_level_counterexample`): the heading
regex of `parseTocFromMarkdown` and `computedToc` is `^(#{1,3})\s+(.+)$` —
levels 1 through 3, not 4.  For every line outside a code fence matching it
with a nonempty trimmed remainder, the projector emits a TOC entry whose
level equals the count of `'#'` characters (necessarily between 1 and 3) at
that line's index; a line `"#### X"` outside a fence yields no entry. -/
theorem c4_toc_level_amended (pre : List (List Char)) (l : List Char)
    (post : List (List Char)) (k : Nat) (txt : List Char)
    (hf : fenceState pre false = false)
    (hm : headingMatch (trimStart (trimEnd l)) = some (k, txt))
    (hne : txt ≠ []) :
    1 ≤ k ∧ k ≤ 3 ∧
      TocItem.mk k txt (anchorOf k txt) pre.length ∈ tocLines (pre ++ l :: post) := by
  have hb := headingMatch_level hm
  refine ⟨hb.1, hb.2, ?_⟩
  unfold tocLines
  rw [tocGo_append pre (l :: post) 0 false, hf]
  apply List.mem_append_right
  have hfl : fenceLine (trimStart (trimEnd l)) = false := headingMatch_not_fence hm
  have hred : tocGo (l :: post) (0 + pre.length) false =
      ⟨k, txt, anchorOf k txt, 0 + pre.length⟩ :: tocGo post (0 + pre.length + 1) false := by
    simp only [tocGo, hfl, hm, hne]
    simp
  rw [hred]
  simp

/-- Witness for C4 (amended): the line `"## Two words"` after one plain line
produces the level-2 entry at line index 1. -/
theorem c4_toc_level_amended_witness :
    headingMatch (trimStart (trimEnd "## Two words".data)) = some (2, "Two words".data) ∧
    (1 ≤ 2 ∧ 2 ≤ 3 ∧
      TocItem.mk 2 "Two words".data (anchorOf 2 "Two words".data) 1 ∈
        tocLines (["intro".data] ++ "## Two words".data :: [])) :=
  ⟨by decide, by
    have h := c4_toc_level_amended ["intro".data] "## Two words".data [] 2 "Two words".data
      (by decide) (by decide) (by decide)
    simpa using h⟩

/-- C4 (counterexample): a line `"#### X"` outside any fence yields NO TOC
entry at all — in particular no level-4 entry — because the regex stops at
three `'#'` characters. -/
theorem c4_toc_level_counterexample :
    parseTocFromMarkdown "#### X".data = [] := by decide

/-- C7: the `inFence` flag is toggled by every line whose trimmed form starts
with a triple backtick, and while `inFence` is set no line yields a TOC
entry: an entry's line index never points at a line scanned inside a fence. -/
theorem c7_fence_awareness :
    (∀ (l : List Char) (f : Bool), fenceLine (trimStart (trimEnd l)) = true →
        fenceState [l] f = !f) ∧
    (∀ (pre : List (List Char)) (l : List Char) (post : List (List Char)),
        fenceState pre false = true →
        fenceLine (trimStart (trimEnd l)) = false →
        ∀ item ∈ tocLines (pre ++ l :: post), item.lineIndex ≠ pre.length) := by
  constructor
  · intro l f hl
    rw [fenceState_cons]
    simp [fenceState, fenceStep, hl]
  · intro pre l post hpre hl item hmem
    unfold tocLines at hmem
    rw [tocGo_append pre (l :: post) 0 false, hpre] at hmem
    rcases List.mem_append.mp hmem with h | h
    · have hb := (tocGo_lineIndex_bounds pre 0 false item h).2
      omega
    · have hred : tocGo (l :: post) (0 + pre.length) true =
          tocGo post (0 + pre.length + 1) true := by
        simp only [tocGo, hl]
        simp
      rw [hred] at h
      have hb := (tocGo_lineIndex_bounds post (0 + pre.length + 1) true item h).1
      omega

/-- Witness for C7: `"### not a heading"` between two fence lines never
appears in the TOC (no entry carries its line index 1). -/
theorem c7_fence_awareness_witness :
    fenceState ["```".data] false = true ∧
    (∀ item ∈ tocLines (["```".data] ++ "### not a heading".data :: ["```".data]),
        item.lineIndex ≠ 1) :=
  ⟨by decide, by
    have h := c7_fence_awareness.2 ["```".data] "### not a heading".data ["```".data]
      (by decide) (by decide)
    simpa using h⟩

/-! ## Section extraction and remap (C3) -/

theorem extractSection_adjusted (contentMd theme sel : List Char) (annos : List Anno)
    (sv : SectionView) (h : extractSection contentMd theme sel annos = some sv) :
    sv.adjusted = adjustAnnos annos sv.sectionStartChar sv.sectionEndChar sv.prefixLen := by
  simp only [extractSection] at h
  split at h
  · injection h with h1
    subst h1
    rfl
  · split at h
    · exact absurd h (by simp)
    · injection h with h1
      subst h1
      rfl

theorem mem_adjustAnnos (annos : List Anno) (s e plen : Nat) (a : Anno) (r : Rng)
    (ha : a ∈ annos) (hr : a.range = some r) (h1 : s ≤ r.start) (h2 : r.start < e) :
    remapA s plen a r ∈ adjustAnnos annos s e plen := by
  unfold adjustAnnos
  apply List.mem_map.mpr
  refine ⟨a, ?_, ?_⟩
  · apply List.mem_filter.mpr
    refine ⟨ha, ?_⟩
    rw [hr]
    simp [h1, h2]
  · rw [hr]

theorem mem_adjustAnnos_rev (annos : List Anno) (s e plen : Nat) (b : Anno)
    (hb : b ∈ adjustAnnos annos s e plen) :
    ∃ a r, a ∈ annos ∧ a.range = some r ∧ s ≤ r.start ∧ r.start < e ∧
      b = remapA s plen a r := by
  unfold adjustAnnos at hb
  obtain ⟨a, haf, hab⟩ := List.mem_map.mp hb
  obtain ⟨ha, hpred⟩ := List.mem_filter.mp haf
  cases hr : a.range with
  | none =>
    rw [hr] at hpred
    simp at hpred
  | some r =>
    rw [hr] at hpred
    simp at hpred
    refine ⟨a, r, ha, hr, hpred.1, hpred.2, ?_⟩
    rw [hr] at hab
    exact hab.symm

/-- C3: whenever section extraction succeeds, an annotation whose stored
range starts within the section bounds `[sectionStartChar, sectionEndChar)`
appears in the extracted view with the remapped range
`{start - sectionStartChar + prefixLen, end - sectionStartChar + prefixLen}`
(`prefixLen` the length of the synthetic prefix prepended to the extracted
text), and every annotation of the extracted view arises this way —
annotations outside the bounds are excluded. -/
theorem c3_section_remap (contentMd theme sel : List Char) (annos : List Anno)
    (sv : SectionView) (h : extractSection contentMd theme sel annos = some sv) :
    (∀ a r, a ∈ annos → a.range = some r → sv.sectionStartChar ≤ r.start →
        r.start < sv.sectionEndChar →
        remapA sv.sectionStartChar sv.prefixLen a r ∈ sv.adjusted) ∧
    (∀ b ∈ sv.adjusted, ∃ a r, a ∈ annos ∧ a.range = some r ∧
        sv.sectionStartChar ≤ r.start ∧ r.start < sv.sectionEndChar ∧
        b = remapA sv.sectionStartChar sv.prefixLen a r) := by
  have hadj := extractSection_adjusted contentMd theme sel annos sv h
  constructor
  · intro a r ha hr h1 h2
    rw [hadj]
    exact mem_adjustAnnos annos _ _ _ a r ha hr h1 h2
  · intro b hb
    rw [hadj] at hb
    exact mem_adjustAnnos_rev annos _ _ _ b hb

/-- Witness for C3: content `"pre\n# H\nbody"` with an annotation covering
`"body"` (range `[8,12)`); extracting section `h1-h` yields `"# H\nbody"`
with the annotation remapped to `[4,8)`, which covers exactly `"body"` in
the extracted text. -/
theorem c3_section_remap_witness :
    extractSection "pre\n# H\nbody".data "T".data "h1-h".data [annoEx] = some svEx ∧
    (("pre\n# H\nbody".data.drop 8).take 4 = "body".data) ∧
    remapA 4 0 annoEx ⟨8, 12⟩ ∈ svEx.adjusted ∧
    (remapA 4 0 annoEx ⟨8, 12⟩).range = some ⟨4, 8⟩ ∧
    ((svEx.markdown.drop 4).take 4 = "body".data) :=
  ⟨by decide, by decide, by
    have h := (c3_section_remap "pre\n# H\nbody".data "T".data "h1-h".data [annoEx] svEx
      (by decide)).1 annoEx ⟨8, 12⟩ (by simp) (by decide) (by decide) (by decide)
    exact h, by decide, by decide⟩

/-- C1: for every text and all annotations and animations (in particular all
entity sets with valid ranges), stripping the tags from the output of
`processContent` — concatenating the verbatim segments emitted between
markers plus the trailing segment — yields exactly the original text. -/
theorem c1_overlay_roundtrip (content : List Char) (annos : List Anno) (anims : List Anim) :
    stripPieces (processContent content annos anims) = content := by
  by_cases hc : content = []
  · simp [processContent, hc, stripPieces]
  · simp only [processContent, if_neg hc]
    by_cases he :
        annos.filterMap (resolveAnno content) ++ anims.filterMap (resolveAnim content) = []
    · simp [he, stripPieces]
    · simp only [if_neg he]
      set es := annos.filterMap (resolveAnno content) ++ anims.filterMap (resolveAnim content)
        with hes
      have hperm := sortMarkers_perm (buildMarkers es content.length)
      have hsorted := sortMarkers_sorted (buildMarkers es content.length)
      have := stripPieces_sweep content es
        (sortMarkers (buildMarkers es content.length)) 0 hsorted
        (fun m hm =>
          mem_buildMarkersGo_index_le content.length es 0 m (hperm.mem_iff.mp hm))
        (fun m _ => Nat.zero_le _) (Nat.zero_le _)
      simpa [overlayPieces] using this

/-! ## Entity resolution and degenerate overlays (C5, C10) -/

theorem processContent_single_invalid (content : List Char) (a : Anno) (e : Entity)
    (hres : resolveAnno content a = some e)
    (hval : validEntity e content.length = false) :
    processContent content [a] [] = if content = [] then [] else [Piece.text content] := by
  by_cases hc : content = []
  · simp [processContent, hc]
  · have hents : ([a].filterMap (resolveAnno content) ++
        ([] : List Anim).filterMap (resolveAnim content)) = [e] := by
      simp [List.filterMap_cons, hres]
    have hbm : buildMarkers [e] content.length = [] := by
      simp [buildMarkers, buildMarkersGo, hval]
    have hover : overlayPieces content [e] = [Piece.text content] := by
      unfold overlayPieces
      rw [hbm]
      show sweep content [e] (sortMarkers []) 0 = _
      have hs : sortMarkers ([] : List Marker) = [] := rfl
      rw [hs]
      simp [sweep, List.length_pos.mpr hc]
    simp only [processContent, if_neg hc, hents]
    rw [if_neg (by simp), hover]

/-- C5 (amended, counterexample `c5_fallback_counterexample`): the overlay
engine uses a stored range whenever the `range` field is present — valid or
not — and applies the first-occurrence text-search fallback only when the
`range` field is absent; an entity whose present range fails the validity
check is silently dropped (the document still renders as bare text, nothing
throws), and an absent-range entity is dropped when its text is empty or
does not occur in the content. -/
theorem c5_resolution_amended (content : List Char) (a : Anno) :
    (∀ r, a.range = some r →
        resolveAnno content a = some ⟨r.start, r.stop, a.kind, a.id, a.text⟩) ∧
    (∀ i, a.range = none → a.text ≠ [] → indexOfSub a.text content = some i →
        resolveAnno content a = some ⟨i, i + a.text.length, a.kind, a.id, a.text⟩) ∧
    (a.range = none → a.text = [] → resolveAnno content a = none) ∧
    (a.range = none → indexOfSub a.text content = none → resolveAnno content a = none) ∧
    (∀ r, a.range = some r →
        validEntity ⟨r.start, r.stop, a.kind, a.id, a.text⟩ content.length = false →
        processContent content [a] [] = if content = [] then [] else [Piece.text content]) := by
  refine ⟨?_, ?_, ?_, ?_, ?_⟩
  · intro r hr
    unfold resolveAnno
    rw [hr]
  · intro i hr ht hidx
    unfold resolveAnno
    rw [hr]
    simp [ht, hidx]
  · intro hr ht
    unfold resolveAnno
    rw [hr]
    simp [ht]
  · intro hr hidx
    unfold resolveAnno
    rw [hr]
    by_cases ht : a.text = [] <;> simp [ht, hidx]
  · intro r hr hval
    apply processContent_single_invalid content a _ ?_ hval
    unfold resolveAnno
    rw [hr]

/-- Witness for C5 (amended): `annoInvalid` stores range `[5,7)` over
`"abc"`; the stored range is used as-is and, being invalid, the annotation
renders nothing — the output is the bare text. -/
theorem c5_resolution_amended_witness :
    annoInvalid.range = some ⟨5, 7⟩ ∧
    resolveAnno "abc".data annoInvalid =
      some ⟨5, 7, annoInvalid.kind, annoInvalid.id, annoInvalid.text⟩ ∧
    processContent "abc".data [annoInvalid] [] =
      if "abc".data = ([] : List Char) then [] else [Piece.text "abc".data] :=
  ⟨rfl,
    (c5_resolution_amended "abc".data annoInvalid).1 ⟨5, 7⟩ rfl,
    (c5_resolution_amended "abc".data annoInvalid).2.2.2.2 ⟨5, 7⟩ rfl (by decide)⟩

/-- C5 (counterexample): an entity carrying the stored invalid range `[5,7)`
for the text `"abc"` does NOT render at the first occurrence of its text
`"abc"` (offset 0) — the text-search fallback is not applied when a stored
range is present, and the output carries no tag at all. -/
theorem c5_fallback_counterexample :
    annoInvalid.range = some ⟨5, 7⟩ ∧
    validEntity ⟨5, 7, annoInvalid.kind, annoInvalid.id, annoInvalid.text⟩
      ("abc".data).length = false ∧
    indexOfSub annoInvalid.text "abc".data = some 0 ∧
    processContent "abc".data [annoInvalid] [] = [Piece.text "abc".data] := by
  decide

/-- C10: a JSON-imported annotation whose `range` field is absent or has
non-numeric bounds is normalized to `{start: 0, end: 0}`; since a range is
then present, the overlay engine resolves it as stored — the text-search
fallback never applies — and `{0,0}` fails the validity check
(`start < end`), so the imported legacy annotation is never rendered. -/
theorem c10_import_normalization (raw : RawAnno)
    (h : raw.range = none ∨ ∃ rr, raw.range = some rr ∧ rr.start = none ∧ rr.stop = none) :
    (normalizeAnno raw).range = some ⟨0, 0⟩ ∧
    (∀ content : List Char, resolveAnno content (normalizeAnno raw) =
        some ⟨0, 0, (normalizeAnno raw).kind, (normalizeAnno raw).id,
          (normalizeAnno raw).text⟩) ∧
    (∀ len : Nat, validEntity ⟨0, 0, (normalizeAnno raw).kind, (normalizeAnno raw).id,
        (normalizeAnno raw).text⟩ len = false) ∧
    (∀ content : List Char, processContent content [normalizeAnno raw] [] =
        if content = [] then [] else [Piece.text content]) := by
  have hr : (normalizeAnno raw).range = some ⟨0, 0⟩ := by
    rcases h with h | ⟨rr, h, h1, h2⟩
    · simp [normalizeAnno, h]
    · simp [normalizeAnno, h, h1, h2]
  have hres : ∀ content : List Char, resolveAnno content (normalizeAnno raw) =
      some ⟨0, 0, (normalizeAnno raw).kind, (normalizeAnno raw).id,
        (normalizeAnno raw).text⟩ := by
    intro content
    unfold resolveAnno
    rw [hr]
  refine ⟨hr, hres, ?_, ?_⟩
  · intro len
    simp [validEntity]
  · intro content
    exact processContent_single_invalid content (normalizeAnno raw) _ (hres content)
      (by simp [validEntity])

/-- Witness for C10: an imported record with no `range` field and text
`"abc"` is normalized to range `[0,0)` and renders nothing over `"abc"`,
although the text occurs. -/
theorem c10_import_normalization_witness :
    (normalizeAnno rawEx).range = some ⟨0, 0⟩ ∧
    processContent "abc".data [normalizeAnno rawEx] [] = [Piece.text "abc".data] :=
  ⟨(c10_import_normalization rawEx (Or.inl rfl)).1, by
    have h := (c10_import_normalization rawEx (Or.inl rfl)).2.2.2 "abc".data
    simpa using h⟩

/-! ## Mind-map projection (C6) -/

/-- C6: for the document `# A` / `## B` / `## C`, the stack hierarchy (root
at level 0; pop while top level ≥ current, attach to the new top, push)
yields: the synthetic root with no parent, A's parent the root, and B and C
both children of A (siblings, not nested); the TOC has exactly 3 entries. -/
theorem c6_projection_consistency :
    (mindmapData "# A\n## B\n## C".data "T".data).map
        (fun p => p.1.map fun n => (n.id, n.parentId)) =
      some [("root".data, none), ("h1-a".data, some "root".data),
        ("h2-b".data, some "h1-a".data), ("h2-c".data, some "h1-a".data)] ∧
    (computedToc "# A\n## B\n## C".data).length = 3 := by
  constructor
  · decide
  · decide

/-! ## Graph store (C8, C9) -/

/-- C8: `deleteNode` removes exactly the node with the given id and every
edge whose `fromNodeId` or `toNodeId` equals it; every other node and edge
is kept as the very same element (all field values unchanged), in order. -/
theorem c8_delete_cascade (st : AppState) (nodeId : List Char) :
    (∀ n : StoreNode, n ∈ (deleteNode st nodeId).nodes ↔
        (n ∈ st.nodes ∧ n.id ≠ nodeId)) ∧
    (∀ e : StoreEdge, e ∈ (deleteNode st nodeId).edges ↔
        (e ∈ st.edges ∧ e.fromNodeId ≠ nodeId ∧ e.toNodeId ≠ nodeId)) ∧
    (deleteNode st nodeId).nodes.Sublist st.nodes ∧
    (deleteNode st nodeId).edges.Sublist st.edges := by
  refine ⟨?_, ?_, List.filter_sublist _, List.filter_sublist _⟩
  · intro n
    simp [deleteNode, List.mem_filter]
  · intro e
    simp [deleteNode, List.mem_filter]

/-- C9: `addEdge` is idempotent per edge id — inserting `e₁` into a store
holding no edge of that id appends exactly `e₁`, and a second `addEdge`
with any edge bearing the same id returns the state unchanged (no
overwrite), leaving exactly one edge with that id, equal to the first
inserted edge. -/
theorem c9_addEdge_idempotent (st : AppState) (e₁ e₂ : StoreEdge)
    (hid : e₂.id = e₁.id) (hfresh : ∀ e ∈ st.edges, e.id ≠ e₁.id) :
    (addEdge st e₁).edges = st.edges ++ [e₁] ∧
    addEdge (addEdge st e₁) e₂ = addEdge st e₁ ∧
    ((addEdge (addEdge st e₁) e₂).edges.filter fun e => decide (e.id = e₁.id)) = [e₁] := by
  have h1 : (st.edges.any fun e' => decide (e'.id = e₁.id)) = false := by
    apply List.any_eq_false.mpr
    intro e he
    simp [hfresh e he]
  have hA : addEdge st e₁ = { st with edges := st.edges ++ [e₁] } := by
    unfold addEdge
    rw [h1]
    simp
  have h2 : ((st.edges ++ [e₁]).any fun e' => decide (e'.id = e₂.id)) = true := by
    apply List.any_eq_true.mpr
    exact ⟨e₁, by simp, by simp [hid]⟩
  have hB : addEdge { st with edges := st.edges ++ [e₁] } e₂ =
      { st with edges := st.edges ++ [e₁] } := by
    unfold addEdge
    rw [h2]
    simp
  refine ⟨by rw [hA], by rw [hA, hB], ?_⟩
  rw [hA, hB]
  show ((st.edges ++ [e₁]).filter fun e => decide (e.id = e₁.id)) = [e₁]
  rw [List.filter_append]
  have hnil : (st.edges.filter fun e => decide (e.id = e₁.id)) = [] := by
    apply List.filter_eq_nil.mpr
    intro e he
    simp [hfresh e he]
  rw [hnil]
  simp

/-- Witness for C8: deleting node `n1` from a two-node store keeps `n2`
untouched and drops the edge incident to `n1`. -/
theorem c8_delete_cascade_witness :
    ((⟨"n2".data, none, "t2".data⟩ : StoreNode) ∈
      (deleteNode ⟨[⟨"n1".data, none, "t1".data⟩, ⟨"n2".data, none, "t2".data⟩],
          [⟨"e1".data, "n1".data, "n2".data⟩]⟩ "n1".data).nodes) ∧
    ((⟨"e1".data, "n1".data, "n2".data⟩ : StoreEdge) ∉
      (deleteNode ⟨[⟨"n1".data, none, "t1".data⟩, ⟨"n2".data, none, "t2".data⟩],
          [⟨"e1".data, "n1".data, "n2".data⟩]⟩ "n1".data).edges) := by
  constructor
  · exact ((c8_delete_cascade _ _).1 _).mpr ⟨by simp, by decide⟩
  · intro hmem
    have h := ((c8_delete_cascade _ _).2.1 _).mp hmem
    exact h.2.1 rfl

/-- Witness for C9: inserting id `"e"` twice into the empty store leaves
exactly the first edge. -/
theorem c9_addEdge_idempotent_witness :
    (addEdge ⟨[], []⟩ ⟨"e".data, "a".data, "b".data⟩).edges =
        [] ++ [⟨"e".data, "a".data, "b".data⟩] ∧
    addEdge (addEdge ⟨[], []⟩ ⟨"e".data, "a".data, "b".data⟩)
        ⟨"e".data, "c".data, "d".data⟩ =
      addEdge ⟨[], []⟩ ⟨"e".data, "a".data, "b".data⟩ ∧
    ((addEdge (addEdge ⟨[], []⟩ ⟨"e".data, "a".data, "b".data⟩)
        ⟨"e".data, "c".data, "d".data⟩).edges.filter
      fun e => decide (e.id = ("e".data : List Char))) =
        [⟨"e".data, "a".data, "b".data⟩] :=
  c9_addEdge_idempotent ⟨[], []⟩ ⟨"e".data, "a".data, "b".data⟩
    ⟨"e".data, "c".data, "d".data⟩ rfl (by simp)

end NexLearn
